import Mathlib

/-!
Shallow embedding of the httpie-style CLI (src/main.rs) for verification.

Rust strings are modelled as Lean `String` (or `List Char` where the claim
is about character streams), fallible functions as `Except`/`Option`, and
the panicking paths of the code as an explicit `PanicOr` result.  Calls
into external crates (`url`, `mime`, `reqwest`, `syntect`) are modelled by
small executable Lean definitions faithful to those crates' documented
behaviour at the points this program uses them; each such definition says
so in its doc comment.
-/

/-! ## Key-value pair parsing (KvPair, src/main.rs lines 39-61) -/

/-- One step of splitting: push character `c` onto the segments produced for
the rest of the string.  Mirrors the behaviour of Rust's `str::split` with a
one-character pattern, built back to front. -/
def consSeg (sep : Char) (c : Char) (segs : List (List Char)) : List (List Char) :=
  if c = sep then [] :: segs
  else
    match segs with
    | [] => [[c]]
    | g :: gs => (c :: g) :: gs

/-- Rust `s.split("=")` (for a one-character separator): the list of segments
between occurrences of `sep`; always nonempty, empty segments kept. -/
def splitOnChar (sep : Char) : List Char → List (List Char)
  | [] => [[]]
  | c :: cs => consSeg sep c (splitOnChar sep cs)

/-- The characters of `l` strictly before the first occurrence of `sep`. -/
def takeUntil (sep : Char) : List Char → List Char
  | [] => []
  | c :: cs => if c = sep then [] else c :: takeUntil sep cs

/-- The `KvPair` struct of src/main.rs: one `key=value` CLI token. -/
structure KvPair where
  k : String
  v : String
deriving DecidableEq, Repr

/-- `impl FromStr for KvPair` (src/main.rs lines 45-57): split the token on
`=` and take the first two segments via two `Iterator::next` calls; if a
second segment does not exist, fail with a message naming the token. -/
def KvPair.from_str (s : String) : Except String KvPair :=
  match splitOnChar '=' s.data with
  | k :: v :: _ => Except.ok ⟨String.mk k, String.mk v⟩
  | _ => Except.error ("Failed to parse " ++ s)

/-- `parse_kv_pair` (src/main.rs lines 59-61): thin wrapper over `from_str`. -/
def parse_kv_pair (s : String) : Except String KvPair :=
  KvPair.from_str s

/-! ## URL validation (parse_url, src/main.rs lines 22-25) -/

/-- The url crate's parse errors relevant to this program; their `Display`
messages are fixed strings that never embed the offending input. -/
inductive UrlParseError where
  | relativeUrlWithoutBase
  | emptyHost
deriving DecidableEq, Repr

/-- The `Display` text of a url-crate parse error. -/
def UrlParseError.message : UrlParseError → String
  | .relativeUrlWithoutBase => "relative URL without a base"
  | .emptyHost => "empty host"

/-- A parsed absolute URL (scheme plus everything after the colon). -/
structure Url where
  scheme : String
  rest : String
deriving DecidableEq, Repr

/-- Scheme characters after the first: ASCII alphanumeric or `+`, `-`, `.`
(RFC 3986, as enforced by the url crate). -/
def isSchemeChar (c : Char) : Bool :=
  c.isAlphanum || c = '+' || c = '-' || c = '.'

/-- A valid scheme: nonempty, starts with a letter, rest scheme characters. -/
def validSchemeChars (l : List Char) : Bool :=
  match l with
  | [] => false
  | c :: rest => c.isAlpha && rest.all isSchemeChar

/-- Schemes the WHATWG URL standard treats as special (require a host). -/
def specialSchemes : List String :=
  ["http", "https", "ws", "wss", "ftp", "file"]

/-- Models `url::Url::parse` as used by `parse_url`: an input with no valid
`scheme:` prefix is a relative URL (error `RelativeUrlWithoutBase`); a
special scheme additionally needs a nonempty host after the slashes
(`EmptyHost` otherwise).  Pure: no network access. -/
def Url.parse (s : String) : Except UrlParseError Url :=
  let l := s.data
  let pre := takeUntil ':' l
  if pre.length = l.length then Except.error UrlParseError.relativeUrlWithoutBase
  else if validSchemeChars pre then
    let scheme := String.mk (pre.map Char.toLower)
    let after := l.drop (pre.length + 1)
    if specialSchemes.contains scheme then
      let afterSlashes := after.dropWhile (fun c => c = '/' || c = '\\')
      let host := afterSlashes.takeWhile (fun c => !(c = '/' || c = '?' || c = '#'))
      if scheme ≠ "file" ∧ host = [] then Except.error UrlParseError.emptyHost
      else Except.ok ⟨scheme, String.mk after⟩
    else Except.ok ⟨scheme, String.mk after⟩
  else Except.error UrlParseError.relativeUrlWithoutBase

/-- `parse_url` (src/main.rs lines 22-25): `let _url: Url = s.parse()?;`
returns the original string on success and propagates the url crate's parse
error (its message, via anyhow) on failure. -/
def parse_url (s : String) : Except String String :=
  match Url.parse s with
  | Except.ok _ => Except.ok s
  | Except.error e => Except.error e.message

/-- Whether an `Except` value is the success case. -/
def exceptIsOk : Except ε α → Bool
  | Except.ok _ => true
  | Except.error _ => false

/-- Does `hay` start with `needle`? -/
def beginsWith : List Char → List Char → Bool
  | [], _ => true
  | _ :: _, [] => false
  | a :: xs, b :: ys => a = b && beginsWith xs ys

/-- Does `needle` occur as a contiguous substring of `hay`? -/
def containsSub (needle : List Char) : List Char → Bool
  | [] => beginsWith needle []
  | c :: rest => beginsWith needle (c :: rest) || containsSub needle rest

deriving instance DecidableEq for Except

/-! ## MIME types and the Content-Type header (src/main.rs lines 101-113) -/

/-- RFC 7230 token characters accepted in a MIME type or subtype (the mime
crate's grammar, without the quote-like characters, which this program's
inputs never contain). -/
def isTokenChar (c : Char) : Bool :=
  c.isAlphanum || c = '!' || c = '#' || c = '$' || c = '&' || c = '-' ||
    c = '.' || c = '^' || c = '_' || c = '|' || c = '~' || c = '+' || c = '*'

/-- A parsed MIME type as the mime crate exposes it: lowercased type and
subtype, and the raw parameter suffix (empty when there are no parameters,
so equality with the parameterless constants holds only for a bare
`type/subtype`). -/
structure Mime where
  type_ : String
  subtype : String
  params : String
deriving DecidableEq, Repr

/-- The constant `mime::APPLICATION_JSON`. -/
def APPLICATION_JSON : Mime := ⟨"application", "json", ""⟩

/-- The constant `mime::TEXT_HTML`. -/
def TEXT_HTML : Mime := ⟨"text", "html", ""⟩

/-- `text/plain`, for responses rendered as raw text. -/
def TEXT_PLAIN : Mime := ⟨"text", "plain", ""⟩

/-- Models `str::parse::<mime::Mime>`: require `type/subtype` made of token
characters before any `;` parameter section; lowercase the essence; keep the
parameter text verbatim.  Returns `none` where the mime crate errors. -/
def Mime.parse (s : String) : Option Mime :=
  let l := s.data
  let main := takeUntil ';' l
  let params := l.drop main.length
  let ty := takeUntil '/' main
  if ty.length = main.length then none
  else
    let sub := main.drop (ty.length + 1)
    if ty ≠ [] ∧ sub ≠ [] ∧ ty.all isTokenChar ∧ sub.all isTokenChar then
      some ⟨String.mk (ty.map Char.toLower), String.mk (sub.map Char.toLower),
        String.mk params⟩
    else none

/-- Models `http::HeaderValue::to_str`: succeeds exactly when every byte of
the header value is visible ASCII (32..126) or horizontal tab. -/
def headerValueToStr (bytes : List Nat) : Option String :=
  if bytes.all (fun b => (32 ≤ b ∧ b ≤ 126) ∨ b = 9) then
    some (String.mk (bytes.map Char.ofNat))
  else none

/-- A computation that either returns a value or aborts the process with a
Rust panic message (`Option::unwrap` / `Result::unwrap` on the wrong case). -/
inductive PanicOr (α : Type) where
  | ok : α → PanicOr α
  | panicked : String → PanicOr α
deriving DecidableEq, Repr

/-- `get_content_type` (src/main.rs lines 109-113): map the Content-Type
header (if present) through `to_str().unwrap().parse().unwrap()`.  Both
`unwrap` calls panic rather than return an error when the value cannot be
decoded as a string or parsed as a MIME type. -/
def get_content_type (contentTypeHeader : Option (List Nat)) : PanicOr (Option Mime) :=
  match contentTypeHeader with
  | none => PanicOr.ok none
  | some bytes =>
    match headerValueToStr bytes with
    | none => PanicOr.panicked "called Result::unwrap() on an Err value: ToStrError"
    | some str =>
      match Mime.parse str with
      | none => PanicOr.panicked "called Result::unwrap() on an Err value: FromStrError"
      | some m => PanicOr.ok (some m)

/-! ## Response body rendering (src/main.rs lines 89-107) -/

/-- The ASCII escape character starting an ANSI control sequence. -/
def esc : Char := Char.ofNat 27

/-- The ASCII digit for `n` (meaningful for `n < 10`). -/
def digitChar (n : Nat) : Char := Char.ofNat (48 + n)

/-- Decimal digits of `n`, most significant first, with explicit fuel so the
recursion is structural (fuel `n + 1` always suffices). -/
def toDecimalCore : Nat → Nat → List Char
  | 0, _ => []
  | fuel + 1, n =>
    if n < 10 then [digitChar n]
    else toDecimalCore fuel (n / 10) ++ [digitChar (n % 10)]

/-- Decimal rendering of a natural number, as Rust's integer formatting. -/
def toDecimal (n : Nat) : List Char := toDecimalCore (n + 1) n

/-- A syntect text style: 24-bit foreground and background colors. -/
structure Style where
  fgR : Nat
  fgG : Nat
  fgB : Nat
  bgR : Nat
  bgG : Nat
  bgB : Nat
deriving DecidableEq, Repr

/-- An SGR 24-bit color sequence `ESC [ code ; 2 ; r ; g ; b m` as written
by syntect's `as_24_bit_terminal_escaped` (code 38 foreground, 48
background). -/
def sgrSeq (code r g b : Nat) : List Char :=
  esc :: '[' :: (toDecimal code ++ ';' :: '2' :: ';' ::
    (toDecimal r ++ ';' :: (toDecimal g ++ ';' :: (toDecimal b ++ ['m']))))

/-- The foreground color escape for a style. -/
def fgSeq (st : Style) : List Char := sgrSeq 38 st.fgR st.fgG st.fgB

/-- The background color escape for a style. -/
def bgSeq (st : Style) : List Char := sgrSeq 48 st.bgR st.bgG st.bgB

/-- Models syntect's `as_24_bit_terminal_escaped`: for each highlighted
range, the background escape (when `bg` is set), the foreground escape, then
the range's text, all concatenated. -/
def as_24_bit_terminal_escaped (v : List (Style × List Char)) (bg : Bool) : List Char :=
  (v.map (fun p => (if bg then bgSeq p.1 else []) ++ fgSeq p.1 ++ p.2)).flatten

/-- One step of syntect's `LinesWithEndings`: push character `c` onto the
lines of the rest of the text, starting a new line after every newline. -/
def consLine (c : Char) (ls : List (List Char)) : List (List Char) :=
  if c = '\n' then ['\n'] :: ls
  else
    match ls with
    | [] => [[c]]
    | g :: gs => (c :: g) :: gs

/-- Models syntect's `LinesWithEndings::from`: the lines of the text, each
keeping its trailing newline; a final line without a newline is kept too;
the empty text has no lines. -/
def linesWithEndings : List Char → List (List Char)
  | [] => []
  | c :: cs => consLine c (linesWithEndings cs)

/-- A line highlighter: what `HighlightLines::highlight` produces for one
line, a list of styled ranges. -/
def Highlighter : Type := List Char → List (Style × List Char)

/-- Syntect's contract for `highlight`: the returned ranges carve the input
line into consecutive pieces, so their texts concatenate back to the line. -/
def Covers (hl : Highlighter) : Prop :=
  ∀ line : List Char, ((hl line).map Prod.snd).flatten = line

/-- `print_syntect` (src/main.rs lines 89-99): for each line of the text
(endings kept), highlight it, render the ranges with 24-bit escapes
(background on), and `println!` the result — which appends one more newline
after the line's own ending. -/
def print_syntect (hl : Highlighter) (s : List Char) : List Char :=
  ((linesWithEndings s).map
    (fun line => as_24_bit_terminal_escaped (hl line) true ++ ['\n'])).flatten

/-- `print_body` (src/main.rs lines 101-107): dispatch on the sniffed MIME
type — `application/json` and `text/html` are highlighted via
`print_syntect` (with the grammar chosen by extension, here the respective
highlighter argument), anything else is printed raw by `println!`. -/
def print_body (hlJson hlHtml : Highlighter) (m : Option Mime) (body : List Char) :
    List Char :=
  match m with
  | some v =>
    if v = APPLICATION_JSON then print_syntect hlJson body
    else if v = TEXT_HTML then print_syntect hlHtml body
    else body ++ ['\n']
  | none => body ++ ['\n']

/-- State machine that removes ANSI escape sequences: in state `true` we are
inside a sequence and drop characters up to and including the terminating
`m`; in state `false` an `esc` enters a sequence and any other character is
kept. -/
def stripAnsiAux : Bool → List Char → List Char
  | _, [] => []
  | true, c :: cs => if c = 'm' then stripAnsiAux false cs else stripAnsiAux true cs
  | false, c :: cs =>
    if c = esc then stripAnsiAux true cs else c :: stripAnsiAux false cs

/-- Remove all ANSI color escape sequences from a character stream. -/
def stripAnsi (l : List Char) : List Char := stripAnsiAux false l

/-- The text of `s` with one extra newline appended to every line (the shape
`print_syntect` produces once escapes are removed). -/
def renderedLines (s : List Char) : List Char :=
  ((linesWithEndings s).map (fun l => l ++ ['\n'])).flatten

/-- The default style of the built-in `base16-ocean.dark` theme (foreground
`c0c5ce`, background `2b303b`). -/
def defaultStyle : Style := ⟨192, 197, 206, 43, 48, 59⟩

/-- A concrete highlighter satisfying syntect's contract: the whole line as
one range in the theme's default style.  Used to evaluate the rendering
pipeline on concrete inputs. -/
def hl_model : Highlighter := fun line => [(defaultStyle, line)]

/-! ## POST request building (src/main.rs lines 129-136) -/

/-- `HashMap::insert` on the model of the body map as an association list
keyed by first insertion: replace the value of an existing key, append a new
key at the end. -/
def insertKV : List (String × String) → String → String → List (String × String)
  | [], k, v => [(k, v)]
  | (k0, v0) :: rest, k, v =>
    if k0 = k then (k0, v) :: rest else (k0, v0) :: insertKV rest k v

/-- Lookup in the body map. -/
def lookupKV (m : List (String × String)) (key : String) : Option String :=
  match m with
  | [] => none
  | (k0, v0) :: rest => if k0 = key then some v0 else lookupKV rest key

/-- The value of the last pair with key `key`, if any (what last-write-wins
map insertion keeps). -/
def lastValue (key : String) : List KvPair → Option String
  | [] => none
  | p :: rest =>
    match lastValue key rest with
    | some v => some v
    | none => if p.k = key then some p.v else none

/-- The body map `post` builds (src/main.rs lines 130-133): fold
`HashMap::insert` over the ordered pairs. -/
def buildBody (pairs : List KvPair) : List (String × String) :=
  pairs.foldl (fun m p => insertKV m p.k p.v) []

/-- The JSON request `reqwest`'s `RequestBuilder::json` sends: target URL,
the Content-Type header it sets, and the serialized map. -/
structure JsonRequest where
  url : String
  contentType : String
  body : List (String × String)
deriving DecidableEq, Repr

/-- `post` (src/main.rs lines 129-136): build the key-to-value map from the
ordered pairs and attach it as a JSON body; `RequestBuilder::json` sets the
`Content-Type: application/json` header. -/
def post (url : String) (args : List KvPair) : JsonRequest :=
  ⟨url, "application/json", buildBody args⟩

/-- JSON string escaping of one character (serde_json): quote, backslash and
the common control characters. -/
def escapeJsonChar (c : Char) : List Char :=
  if c = '"' then ['\\', '"']
  else if c = '\\' then ['\\', '\\']
  else if c = '\n' then ['\\', 'n']
  else if c = '\r' then ['\\', 'r']
  else if c = '\t' then ['\\', 't']
  else [c]

/-- A JSON string literal for `s`. -/
def jsonString (s : String) : List Char :=
  '"' :: (s.data.map escapeJsonChar).flatten ++ ['"']

/-- Comma-separated concatenation. -/
def joinComma : List (List Char) → List Char
  | [] => []
  | [x] => x
  | x :: y :: xs => x ++ ',' :: joinComma (y :: xs)

/-- serde_json serialization of the body map as a JSON object, members in
map order. -/
def serializeBody (m : List (String × String)) : List Char :=
  Char.ofNat 123 ::
    (joinComma (m.map (fun p => jsonString p.1 ++ ':' :: jsonString p.2)) ++
      [Char.ofNat 125])

/-! ## Helper lemmas: splitting on a character -/

/-- Splitting never produces an empty list of segments. -/
theorem consSeg_ne_nil (sep c : Char) (segs : List (List Char)) :
    consSeg sep c segs ≠ [] := by
  unfold consSeg
  split
  · simp
  · split <;> simp

/-- Splitting never produces an empty list of segments. -/
theorem splitOnChar_ne_nil (sep : Char) (l : List Char) :
    splitOnChar sep l ≠ [] := by
  cases l with
  | nil => simp [splitOnChar]
  | cons c cs => exact consSeg_ne_nil sep c _

/-- A string without the separator is one whole segment. -/
theorem splitOnChar_of_not_mem (sep : Char) (l : List Char) (h : sep ∉ l) :
    splitOnChar sep l = [l] := by
  induction l with
  | nil => rfl
  | cons c cs ih =>
    have hc : c ≠ sep := by rintro rfl; exact h (List.mem_cons_self c cs)
    have hcs : sep ∉ cs := fun hm => h (List.mem_cons_of_mem c hm)
    simp [splitOnChar, ih hcs, consSeg, hc]

/-- Splitting at the first separator: the part before it is one segment and
the rest is split on its own. -/
theorem splitOnChar_append (sep : Char) (l₁ l₂ : List Char) (h : sep ∉ l₁) :
    splitOnChar sep (l₁ ++ sep :: l₂) = l₁ :: splitOnChar sep l₂ := by
  induction l₁ with
  | nil => simp [splitOnChar, consSeg]
  | cons c cs ih =>
    have hc : c ≠ sep := by rintro rfl; exact h (List.mem_cons_self c cs)
    have hcs : sep ∉ cs := fun hm => h (List.mem_cons_of_mem c hm)
    simp only [List.cons_append, splitOnChar, consSeg, if_neg hc]
    rw [show cs.append (sep :: l₂) = cs ++ sep :: l₂ from rfl, ih hcs]

/-- The first segment is the text before the first separator. -/
theorem splitOnChar_head (sep : Char) (l : List Char) :
    ∃ t, splitOnChar sep l = takeUntil sep l :: t := by
  induction l with
  | nil => exact ⟨[], rfl⟩
  | cons c cs ih =>
    by_cases hc : c = sep
    · subst hc
      exact ⟨splitOnChar c cs, by simp [splitOnChar, consSeg, takeUntil]⟩
    · obtain ⟨t, ht⟩ := ih
      exact ⟨t, by simp [splitOnChar, ht, consSeg, hc, takeUntil]⟩

/-- A string containing the separator splits into at least two segments. -/
theorem splitOnChar_two_of_mem (sep : Char) (l : List Char) (h : sep ∈ l) :
    ∃ a b t, splitOnChar sep l = a :: b :: t := by
  induction l with
  | nil => cases h
  | cons c cs ih =>
    by_cases hc : c = sep
    · subst hc
      obtain ⟨g, gs, hg⟩ : ∃ g gs, splitOnChar c cs = g :: gs := by
        cases hgg : splitOnChar c cs with
        | nil => exact absurd hgg (splitOnChar_ne_nil c cs)
        | cons g gs => exact ⟨g, gs, rfl⟩
      exact ⟨[], g, gs, by simp [splitOnChar, consSeg, hg]⟩
    · have hcs : sep ∈ cs := by
        rcases List.mem_cons.mp h with h1 | h2
        · exact absurd h1.symm hc
        · exact h2
      obtain ⟨a, b, t, ht⟩ := ih hcs
      exact ⟨c :: a, b, t, by simp [splitOnChar, ht, consSeg, hc]⟩

/-- String concatenation acts on character data as list append. -/
theorem string_data_append (s t : String) : (s ++ t).data = s.data ++ t.data := rfl

/-- Reducing the parser once the split is known to have two segments. -/
theorem from_str_eq_ok (s : String) (a b : List Char) (t : List (List Char))
    (h : splitOnChar '=' s.data = a :: b :: t) :
    KvPair.from_str s = Except.ok ⟨String.mk a, String.mk b⟩ := by
  unfold KvPair.from_str
  rw [h]

/-- Reducing the parser when the token has no separator. -/
theorem from_str_eq_error (s : String) (h : '=' ∉ s.data) :
    KvPair.from_str s = Except.error ("Failed to parse " ++ s) := by
  unfold KvPair.from_str
  rw [splitOnChar_of_not_mem '=' s.data h]

/-- C3: the key-value parser fails exactly when the token contains no `=`:
with at least one `=` it succeeds (including the empty-value token `b=`),
and with none it returns an error whose message reports the original
token. -/
theorem C3_kv_fail_iff_no_eq (s : String) :
    ((∃ p, KvPair.from_str s = Except.ok p) ↔ '=' ∈ s.data) ∧
    ('=' ∉ s.data → KvPair.from_str s = Except.error ("Failed to parse " ++ s)) ∧
    KvPair.from_str "b=" = Except.ok ⟨"b", ""⟩ := by
  refine ⟨⟨?_, ?_⟩, from_str_eq_error s, by decide⟩
  · intro ⟨p, hp⟩
    by_contra hmem
    rw [from_str_eq_error s hmem] at hp
    cases hp
  · intro hmem
    obtain ⟨a, b, t, ht⟩ := splitOnChar_two_of_mem '=' s.data hmem
    exact ⟨⟨String.mk a, String.mk b⟩, from_str_eq_ok s a b t ht⟩

/-- C2 counterexample: on the token `a=b=c` the parser yields value `b`
(the second split segment), not the whole remainder `b=c` the claim
requires. -/
theorem C2_second_segment_cex :
    KvPair.from_str "a=b=c" = Except.ok ⟨"a", "b"⟩ ∧
    KvPair.from_str "a=b=c" ≠ Except.ok ⟨"a", "b=c"⟩ :=
  ⟨by decide, by decide⟩

/-- C2 (amended): the parser splits the token on every `=` and keeps the
first two segments: for a key without `=`, the value is the remainder only
up to the next `=` (the whole remainder when the value contains no `=`). -/
theorem C2_first_two_segments (k v : String) (h : '=' ∉ k.data) :
    KvPair.from_str (k ++ "=" ++ v) =
      Except.ok ⟨k, String.mk (takeUntil '=' v.data)⟩ := by
  have hdata : (k ++ "=" ++ v).data = k.data ++ '=' :: v.data := by
    rw [string_data_append, string_data_append]
    simp
  obtain ⟨t, ht⟩ := splitOnChar_head '=' v.data
  have hsplit : splitOnChar '=' (k ++ "=" ++ v).data =
      k.data :: takeUntil '=' v.data :: t := by
    rw [hdata, splitOnChar_append '=' k.data v.data h, ht]
  exact from_str_eq_ok (k ++ "=" ++ v) k.data (takeUntil '=' v.data) t hsplit

/-- C2 witness: the amended statement at the concrete token `a=b=c`. -/
theorem C2_first_two_segments_witness :
    KvPair.from_str ("a" ++ "=" ++ "b=c") =
      Except.ok ⟨"a", String.mk (takeUntil '=' "b=c".data)⟩ :=
  C2_first_two_segments "a" "b=c" (by decide)

/-- C10: the parser accepts an empty key segment: every token starting with
`=` parses with key the empty string; in particular `=v` gives value `v` and
`=` gives the empty value. -/
theorem C10_empty_key_accepted :
    (∀ v : String, ∃ val, KvPair.from_str ("=" ++ v) = Except.ok ⟨"", val⟩) ∧
    KvPair.from_str "=v" = Except.ok ⟨"", "v"⟩ ∧
    KvPair.from_str "=" = Except.ok ⟨"", ""⟩ := by
  refine ⟨?_, by decide, by decide⟩
  intro v
  have hdata : ("=" ++ v).data = '=' :: v.data := rfl
  obtain ⟨t, ht⟩ := splitOnChar_head '=' v.data
  have hsplit : splitOnChar '=' ("=" ++ v).data =
      [] :: takeUntil '=' v.data :: t := by
    rw [hdata]
    simp [splitOnChar, consSeg, ht]
  exact ⟨String.mk (takeUntil '=' v.data),
    from_str_eq_ok ("=" ++ v) [] (takeUntil '=' v.data) t hsplit⟩

/-- C4: the URL validator accepts exactly the strings the URL parser parses
as absolute URLs and returns the input itself on success; it is a pure
function of the input (no network access), and the spec's examples check
out. -/
theorem C4_url_accepts_iff :
    (∀ s, exceptIsOk (Url.parse s) = true ↔ parse_url s = Except.ok s) ∧
    parse_url "https://abc.xyz" = Except.ok "https://abc.xyz" ∧
    parse_url "https://abc.org/xyz" = Except.ok "https://abc.org/xyz" ∧
    exceptIsOk (parse_url "abc") = false := by
  refine ⟨?_, by rfl, by rfl, by rfl⟩
  intro s
  cases h : Url.parse s with
  | ok u => simp [parse_url, exceptIsOk, h]
  | error e => simp [parse_url, exceptIsOk, h]

/-- C5 counterexample: the string `abc` is rejected, and the error message
is the url crate's fixed text, which does not contain the offending
input. -/
theorem C5_message_without_input_cex :
    parse_url "abc" = Except.error "relative URL without a base" ∧
    containsSub "abc".data "relative URL without a base".data = false :=
  ⟨by rfl, by rfl⟩

/-- C5 (amended): a rejected string yields the underlying URL parse error,
whose message is one of the parser's fixed texts, independent of the
offending input (the input string itself is not part of the message). -/
theorem C5_fixed_error_message (s e : String)
    (h : parse_url s = Except.error e) :
    e = "relative URL without a base" ∨ e = "empty host" := by
  unfold parse_url at h
  cases hu : Url.parse s with
  | ok u => rw [hu] at h; cases h
  | error err =>
    rw [hu] at h
    have he : err.message = e := by injection h
    cases err with
    | relativeUrlWithoutBase => left; rw [← he]; rfl
    | emptyHost => right; rw [← he]; rfl

/-- C5 witness: the amended statement applied at the rejected input `abc`. -/
theorem C5_fixed_error_message_witness :
    "relative URL without a base" = "relative URL without a base" ∨
      "relative URL without a base" = "empty host" :=
  C5_fixed_error_message "abc" "relative URL without a base" (by rfl)

/-- C9 (code bug evidence): a Content-Type header value that decodes as a
string but is not a valid MIME type (here the single byte `@`) makes
`get_content_type` panic through `unwrap` instead of surfacing an error
result, while well-formed and absent headers pass through; so the header
decode error escapes the error-result mechanism by an uncontrolled panic. -/
theorem C9_header_unwrap_panics :
    get_content_type (some ("@".data.map Char.toNat)) =
      PanicOr.panicked "called Result::unwrap() on an Err value: FromStrError" ∧
    get_content_type (some ("application/json".data.map Char.toNat)) =
      PanicOr.ok (some APPLICATION_JSON) ∧
    get_content_type none = PanicOr.ok none :=
  ⟨by rfl, by rfl, by rfl⟩

/-- Looking up a key after one map insertion. -/
theorem lookupKV_insertKV (m : List (String × String)) (k v key : String) :
    lookupKV (insertKV m k v) key = if k = key then some v else lookupKV m key := by
  induction m with
  | nil => by_cases h : k = key <;> simp [insertKV, lookupKV, h]
  | cons p rest ih =>
    obtain ⟨k0, v0⟩ := p
    by_cases h0 : k0 = k
    · subst h0
      by_cases h1 : k0 = key <;> simp [insertKV, lookupKV, h1]
    · by_cases h1 : k0 = key
      · subst h1
        have hk : k ≠ k0 := fun he => h0 he.symm
        simp [insertKV, lookupKV, h0, hk]
      · simp [insertKV, lookupKV, h0, h1, ih]

/-- Folding map insertion over the ordered pairs gives last-write-wins
lookup. -/
theorem lookupKV_foldl (pairs : List KvPair) (m : List (String × String))
    (key : String) :
    lookupKV (pairs.foldl (fun acc p => insertKV acc p.k p.v) m) key =
      match lastValue key pairs with
      | some v => some v
      | none => lookupKV m key := by
  induction pairs generalizing m with
  | nil => simp [lastValue]
  | cons p rest ih =>
    simp only [List.foldl_cons, lastValue]
    rw [ih]
    cases h : lastValue key rest with
    | some v => simp
    | none =>
      simp only []
      rw [lookupKV_insertKV]
      by_cases hk : p.k = key <;> simp [hk]

/-- C6: `post` builds a key-to-value mapping with last-write-wins semantics
from the ordered pairs and sends it as a JSON body with content-type
application/json; the pairs a=1, b=2 serialize to the claimed JSON object,
and a duplicate key keeps the later value. -/
theorem C6_post_json_body :
    (∀ url pairs key, lookupKV (post url pairs).body key = lastValue key pairs) ∧
    (post "https://abc.xyz" [⟨"a", "1"⟩, ⟨"b", "2"⟩]).contentType =
      "application/json" ∧
    serializeBody (post "https://abc.xyz" [⟨"a", "1"⟩, ⟨"b", "2"⟩]).body =
      "\x7b\"a\":\"1\",\"b\":\"2\"\x7d".data ∧
    lookupKV (post "https://abc.xyz" [⟨"a", "1"⟩, ⟨"a", "2"⟩]).body "a" =
      some "2" := by
  refine ⟨?_, by rfl, by rfl, by rfl⟩
  intro url pairs key
  simp only [post, buildBody]
  rw [lookupKV_foldl pairs [] key]
  cases h : lastValue key pairs <;> simp [lookupKV]

/-! ## Helper lemmas: ANSI escapes and line rendering -/

/-- A decimal digit is neither the escape character nor the SGR terminator. -/
theorem digitChar_ne (n : Nat) (h : n < 10) : digitChar n ≠ 'm' ∧ digitChar n ≠ esc := by
  interval_cases n <;> exact ⟨by decide, by decide⟩

/-- Every character of a decimal rendering is a digit-like character,
distinct from `m` and from the escape character. -/
theorem toDecimalCore_ne (fuel n : Nat) (c : Char) (hc : c ∈ toDecimalCore fuel n) :
    c ≠ 'm' ∧ c ≠ esc := by
  induction fuel generalizing n with
  | zero => cases hc
  | succ fuel ih =>
    unfold toDecimalCore at hc
    by_cases h : n < 10
    · rw [if_pos h] at hc
      rw [List.mem_singleton.mp hc]
      exact digitChar_ne n h
    · rw [if_neg h] at hc
      rcases List.mem_append.mp hc with h1 | h2
      · exact ih (n / 10) h1
      · rw [List.mem_singleton.mp h2]
        exact digitChar_ne (n % 10) (Nat.mod_lt n (by norm_num))

/-- The SGR terminator never occurs inside a decimal rendering. -/
theorem m_not_mem_toDecimal (n : Nat) : 'm' ∉ toDecimal n :=
  fun h => (toDecimalCore_ne (n + 1) n 'm' h).1 rfl

/-- Inside an escape sequence the stripper drops everything up to and
including the terminating `m`. -/
theorem stripAnsiAux_true_append (pre rest : List Char) (h : 'm' ∉ pre) :
    stripAnsiAux true (pre ++ 'm' :: rest) = stripAnsiAux false rest := by
  induction pre with
  | nil => simp [stripAnsiAux]
  | cons c cs ih =>
    have hc : c ≠ 'm' := fun he => h (he ▸ List.mem_cons_self c cs)
    have hcs : 'm' ∉ cs := fun hm => h (List.mem_cons_of_mem c hm)
    simp [stripAnsiAux, hc, ih hcs]

/-- Stripping removes a whole SGR color sequence. -/
theorem stripAnsiAux_sgr (code r g b : Nat) (rest : List Char) :
    stripAnsiAux false (sgrSeq code r g b ++ rest) = stripAnsiAux false rest := by
  have hmid : 'm' ∉ '[' :: (toDecimal code ++ ';' :: '2' :: ';' ::
      (toDecimal r ++ ';' :: (toDecimal g ++ ';' :: toDecimal b))) := by
    intro hmem
    rcases List.mem_cons.mp hmem with h | hmem
    · exact absurd h (by decide)
    rcases List.mem_append.mp hmem with h | hmem
    · exact m_not_mem_toDecimal code h
    rcases List.mem_cons.mp hmem with h | hmem
    · exact absurd h (by decide)
    rcases List.mem_cons.mp hmem with h | hmem
    · exact absurd h (by decide)
    rcases List.mem_cons.mp hmem with h | hmem
    · exact absurd h (by decide)
    rcases List.mem_append.mp hmem with h | hmem
    · exact m_not_mem_toDecimal r h
    rcases List.mem_cons.mp hmem with h | hmem
    · exact absurd h (by decide)
    rcases List.mem_append.mp hmem with h | hmem
    · exact m_not_mem_toDecimal g h
    rcases List.mem_cons.mp hmem with h | hmem
    · exact absurd h (by decide)
    exact m_not_mem_toDecimal b hmem
  have hshape : sgrSeq code r g b ++ rest =
      esc :: (('[' :: (toDecimal code ++ ';' :: '2' :: ';' ::
        (toDecimal r ++ ';' :: (toDecimal g ++ ';' :: toDecimal b)))) ++ 'm' :: rest) := by
    simp [sgrSeq]
  rw [hshape]
  have hstep : stripAnsiAux false (esc :: (('[' :: (toDecimal code ++ ';' :: '2' :: ';' ::
      (toDecimal r ++ ';' :: (toDecimal g ++ ';' :: toDecimal b)))) ++ 'm' :: rest)) =
      stripAnsiAux true (('[' :: (toDecimal code ++ ';' :: '2' :: ';' ::
      (toDecimal r ++ ';' :: (toDecimal g ++ ';' :: toDecimal b)))) ++ 'm' :: rest) := by
    simp [stripAnsiAux]
  rw [hstep, stripAnsiAux_true_append _ rest hmid]

/-- Escape-free text passes through the stripper unchanged. -/
theorem stripAnsiAux_text (text rest : List Char) (h : esc ∉ text) :
    stripAnsiAux false (text ++ rest) = text ++ stripAnsiAux false rest := by
  induction text with
  | nil => simp
  | cons c cs ih =>
    have hc : c ≠ esc := fun he => h (he ▸ List.mem_cons_self c cs)
    have hcs : esc ∉ cs := fun hm => h (List.mem_cons_of_mem c hm)
    simp [stripAnsiAux, hc, ih hcs]

/-- Stripping one highlighted-and-escaped range list leaves exactly the
ranges' text. -/
theorem stripAnsiAux_as24 (v : List (Style × List Char)) (rest : List Char)
    (h : ∀ p ∈ v, esc ∉ p.2) :
    stripAnsiAux false (as_24_bit_terminal_escaped v true ++ rest) =
      (v.map Prod.snd).flatten ++ stripAnsiAux false rest := by
  induction v with
  | nil => simp [as_24_bit_terminal_escaped]
  | cons p v' ih =>
    obtain ⟨st, text⟩ := p
    have htext : esc ∉ text := h ⟨st, text⟩ (List.mem_cons_self _ _)
    have hrest : ∀ q ∈ v', esc ∉ q.2 := fun q hq => h q (List.mem_cons_of_mem _ hq)
    have ih' := ih hrest
    simp only [as_24_bit_terminal_escaped, List.map_cons, List.flatten_cons,
      if_true, bgSeq, fgSeq, List.append_assoc] at ih' ⊢
    rw [stripAnsiAux_sgr, stripAnsiAux_sgr, stripAnsiAux_text text _ htext, ih']

/-- Every character of a line produced by `linesWithEndings` is a character
of the original text. -/
theorem mem_linesWithEndings (l : List Char) (line : List Char)
    (hline : line ∈ linesWithEndings l) : ∀ c ∈ line, c ∈ l := by
  induction l generalizing line with
  | nil => cases hline
  | cons a cs ih =>
    simp only [linesWithEndings, consLine] at hline
    by_cases ha : a = '\n'
    · rw [if_pos ha] at hline
      rcases List.mem_cons.mp hline with hEq | hmem
      · intro c hc
        rw [hEq] at hc
        rw [List.mem_singleton.mp hc, ← ha]
        exact List.mem_cons_self a cs
      · exact fun c hc => List.mem_cons_of_mem a (ih line hmem c hc)
    · rw [if_neg ha] at hline
      cases hcs : linesWithEndings cs with
      | nil =>
        rw [hcs] at hline
        intro c hc
        rw [List.mem_singleton.mp hline] at hc
        rw [List.mem_singleton.mp hc]
        exact List.mem_cons_self a cs
      | cons g gs =>
        rw [hcs] at hline
        rcases List.mem_cons.mp hline with hEq | hmem
        · intro c hc
          rw [hEq] at hc
          rcases List.mem_cons.mp hc with hca | hcg
          · rw [hca]; exact List.mem_cons_self a cs
          · exact List.mem_cons_of_mem a
              (ih g (hcs ▸ List.mem_cons_self g gs) c hcg)
        · exact fun c hc => List.mem_cons_of_mem a
            (ih line (hcs ▸ List.mem_cons_of_mem g hmem) c hc)

/-- The lines with endings concatenate back to the original text. -/
theorem linesWithEndings_flatten (l : List Char) :
    (linesWithEndings l).flatten = l := by
  induction l with
  | nil => rfl
  | cons c cs ih =>
    by_cases hc : c = '\n'
    · subst hc
      simp [linesWithEndings, consLine, ih]
    · simp only [linesWithEndings, consLine, if_neg hc]
      cases hcs : linesWithEndings cs with
      | nil =>
        have hnil : cs = [] := by
          rw [hcs] at ih
          simpa using ih.symm
        simp [hnil]
      | cons g gs =>
        rw [hcs] at ih
        simp only [List.flatten_cons] at ih ⊢
        simp [ih]

/-- Stripping the full highlighted rendering of a list of escape-free lines
leaves each line followed by the println newline. -/
theorem strip_flatten_lines (hl : Highlighter) (hcov : Covers hl)
    (L : List (List Char)) (hlines : ∀ l ∈ L, esc ∉ l) :
    stripAnsiAux false
      ((L.map (fun line => as_24_bit_terminal_escaped (hl line) true ++ ['\n'])).flatten) =
      (L.map (fun l => l ++ ['\n'])).flatten := by
  induction L with
  | nil => simp [stripAnsiAux]
  | cons line L' ih =>
    have h1 : esc ∉ line := hlines line (List.mem_cons_self _ _)
    have h2 : ∀ l ∈ L', esc ∉ l := fun l hm => hlines l (List.mem_cons_of_mem _ hm)
    have hranges : ∀ p ∈ hl line, esc ∉ p.2 := by
      intro p hp hmem
      apply h1
      rw [← hcov line]
      exact List.mem_flatten.mpr ⟨p.2, List.mem_map_of_mem Prod.snd hp, hmem⟩
    simp only [List.map_cons, List.flatten_cons, List.append_assoc,
      List.singleton_append]
    rw [stripAnsiAux_as24 (hl line) _ hranges, hcov line]
    have hnl : stripAnsiAux false ('\n' ::
        (L'.map (fun line => as_24_bit_terminal_escaped (hl line) true ++ ['\n'])).flatten) =
        '\n' :: stripAnsiAux false
        ((L'.map (fun line => as_24_bit_terminal_escaped (hl line) true ++ ['\n'])).flatten) := by
      have hne : ¬ ('\n' = esc) := by decide
      simp [stripAnsiAux, hne]
    rw [hnl, ih h2]

/-- Stripping the escapes from `print_syntect` leaves the body's lines, one
extra newline after each. -/
theorem strip_print_syntect (hl : Highlighter) (s : List Char)
    (hcov : Covers hl) (hesc : esc ∉ s) :
    stripAnsi (print_syntect hl s) = renderedLines s := by
  unfold stripAnsi print_syntect renderedLines
  exact strip_flatten_lines hl hcov (linesWithEndings s)
    (fun line hm hc => hesc (mem_linesWithEndings s line hm esc hc))

/-- The concrete model highlighter satisfies syntect's coverage contract. -/
theorem hl_model_covers : Covers hl_model := by
  intro line
  simp [hl_model]

/-- C8 counterexample: for the two-line body `a`, newline, `b`, removing the
ANSI escapes from the rendered output does not give back the original text —
println has inserted extra newlines, changing the line structure. -/
theorem C8_not_identity_cex :
    stripAnsi (print_syntect hl_model "a\nb".data) ≠ "a\nb".data ∧
    stripAnsi (print_syntect hl_model "a\nb".data) = "a\n\nb\n".data :=
  ⟨by decide, by decide⟩

/-- C8 (amended): highlighting itself changes no text — stripping the ANSI
escapes from the rendered output yields exactly the body's lines in order,
but with one extra newline appended to each line by println (the lines
otherwise concatenate back to the body unchanged). -/
theorem C8_strip_gives_lines (hl : Highlighter) (s : List Char)
    (hcov : Covers hl) (hesc : esc ∉ s) :
    stripAnsi (print_syntect hl s) = renderedLines s ∧
    (linesWithEndings s).flatten = s :=
  ⟨strip_print_syntect hl s hcov hesc, linesWithEndings_flatten s⟩

/-- C8 witness: the amended statement at the concrete body `a`, newline,
`b`, under the concrete model highlighter. -/
theorem C8_strip_gives_lines_witness :
    stripAnsi (print_syntect hl_model "a\nb".data) = renderedLines "a\nb".data ∧
    (linesWithEndings "a\nb".data).flatten = "a\nb".data :=
  C8_strip_gives_lines hl_model "a\nb".data hl_model_covers (by decide)

/-- C1 counterexample: for a response with Content-Type application/json
and body the compact object with key `a` and value 1, the rendered output
(ANSI escapes removed) is the body unchanged plus println's newline; it
contains no pretty-printed `"a": 1` with indentation. -/
theorem C1_no_pretty_print_cex :
    containsSub "\"a\": 1".data
      (stripAnsi (print_body hl_model hl_model (some APPLICATION_JSON)
        "\x7b\"a\":1\x7d".data)) = false ∧
    stripAnsi (print_body hl_model hl_model (some APPLICATION_JSON)
        "\x7b\"a\":1\x7d".data) = "\x7b\"a\":1\x7d\n".data :=
  ⟨by decide, by decide⟩

/-- C1 (amended): for Content-Type application/json the renderer applies
JSON syntax highlighting directly to the body with no pretty-printing or
reformatting: stripping the ANSI escapes leaves the body's own lines (each
with println's appended newline), not a re-indented rendition. -/
theorem C1_json_highlighted_as_is (hlJson hlHtml : Highlighter) (body : List Char)
    (hcov : Covers hlJson) (hesc : esc ∉ body) :
    stripAnsi (print_body hlJson hlHtml (some APPLICATION_JSON) body) =
      renderedLines body := by
  have hdisp : print_body hlJson hlHtml (some APPLICATION_JSON) body =
      print_syntect hlJson body := by
    simp [print_body]
  rw [hdisp]
  exact strip_print_syntect hlJson body hcov hesc

/-- C1 witness: the amended statement at the concrete JSON body. -/
theorem C1_json_highlighted_as_is_witness :
    stripAnsi (print_body hl_model hl_model (some APPLICATION_JSON)
      "\x7b\"a\":1\x7d".data) = renderedLines "\x7b\"a\":1\x7d".data :=
  C1_json_highlighted_as_is hl_model hl_model "\x7b\"a\":1\x7d".data
    hl_model_covers (by decide)

/-- C7: for any content type other than application/json and text/html —
text/plain and a missing Content-Type header included — the body is printed
raw: the output is exactly the body followed by println's terminating
newline, with no reformatting and no syntax highlighting applied. -/
theorem C7_raw_passthrough (hlJson hlHtml : Highlighter) (m : Option Mime)
    (body : List Char) (h1 : m ≠ some APPLICATION_JSON) (h2 : m ≠ some TEXT_HTML) :
    print_body hlJson hlHtml m body = body ++ ['\n'] := by
  cases m with
  | none => rfl
  | some v =>
    have hv1 : v ≠ APPLICATION_JSON := fun he => h1 (by rw [he])
    have hv2 : v ≠ TEXT_HTML := fun he => h2 (by rw [he])
    simp [print_body, hv1, hv2]

/-- C7 witness: a text/plain response body passes through verbatim. -/
theorem C7_raw_passthrough_witness :
    print_body hl_model hl_model (some TEXT_PLAIN) "hello".data =
      "hello".data ++ ['\n'] :=
  C7_raw_passthrough hl_model hl_model (some TEXT_PLAIN) "hello".data
    (by decide) (by decide)
